import Mathlib

/-!
Verification of the documentation scraper in `src/mini/scrape_docs.py`
(class `DocumentationScraper`).

The Python string and URL operations the scraper uses are embedded as
executable functions on `List Char` / `String`; `urllib.parse.urlparse`
is modelled for URLs free of ASCII whitespace and control characters
(CPython additionally strips those before parsing).  The crawl engine
(`scrape_page` / `run`) is embedded as a state-transition system whose
fetches are supplied by an environment `Site`; a failed fetch
(`requests.RequestException` or a non-2xx status raised by
`raise_for_status`) is `none`.
-/

namespace ScrapeDocs

/-- Python `str.lstrip(c)`: remove every leading occurrence of `c`. -/
def pyLstrip (c : Char) (l : List Char) : List Char :=
  l.dropWhile (fun d => d = c)

/-- Python `str.rstrip(c)`: remove every trailing occurrence of `c`. -/
def pyRstrip (c : Char) (l : List Char) : List Char :=
  (l.reverse.dropWhile (fun d => d = c)).reverse

/-- Python `str.strip(c)`: remove every leading and trailing occurrence of `c`. -/
def pyStrip (c : Char) (l : List Char) : List Char :=
  pyRstrip c (pyLstrip c l)

/-- Python `url.rstrip('/')` on `String`. -/
def rstripSlash (s : String) : String :=
  String.mk (pyRstrip '/' s.data)

/-- Does `l` start with `pat`?  (Python `str.startswith`.) -/
def listStarts : List Char → List Char → Bool
  | [], _ => true
  | _ :: _, [] => false
  | p :: ps, c :: cs => p = c && listStarts ps cs

/-- Does `l` end with `pat`?  (Python `str.endswith`.) -/
def listEnds (pat l : List Char) : Bool :=
  listStarts pat.reverse l.reverse

/-- Worker for `pyReplaceAll`: `n` counts characters still to discard
from an occurrence matched earlier, so the recursion is structural. -/
def goRepl (pat : List Char) : Nat → List Char → List Char
  | _, [] => []
  | 0, c :: cs =>
    if pat ≠ [] ∧ listStarts pat (c :: cs) = true
    then goRepl pat (pat.length - 1) cs
    else c :: goRepl pat 0 cs
  | n + 1, _ :: cs => goRepl pat n cs

/-- Python `s.replace(pat, '')`: delete every leftmost non-overlapping
occurrence of `pat` (with an empty pattern and empty replacement the string
is unchanged, as in Python). -/
def pyReplaceAll (pat l : List Char) : List Char :=
  goRepl pat 0 l

/-- Delete only the first occurrence of `pat` (used to state the original
claim wording of the filename mapper, which says "first occurrence"). -/
def replaceFirstOcc (pat : List Char) : List Char → List Char
  | [] => []
  | c :: cs =>
    if pat ≠ [] ∧ listStarts pat (c :: cs) = true
    then (c :: cs).drop pat.length
    else c :: replaceFirstOcc pat cs

/-- Characters kept by `re.sub(r'[^\w\-_\.]', '_', ...)` — ASCII model of
Python `\w` plus the explicit hyphen and dot. -/
def keepChar (c : Char) : Bool :=
  c.isAlphanum || c = '_' || c = '-' || c = '.'

/-- `re.sub(r'[^\w\-_\.]', '_', s)`: each disallowed character becomes one
underscore. -/
def subBad (l : List Char) : List Char :=
  l.map (fun c => if keepChar c then c else '_')

/-- Worker for `collapseUnd`; the flag records whether the previous kept
character was an underscore (in which case further underscores are
dropped). -/
def collapseAux : Bool → List Char → List Char
  | _, [] => []
  | inRun, c :: cs =>
    if c = '_' then
      if inRun then collapseAux true cs else '_' :: collapseAux true cs
    else c :: collapseAux false cs

/-- `re.sub(r'_+', '_', s)`: collapse each run of underscores to one. -/
def collapseUnd (l : List Char) : List Char :=
  collapseAux false l

/-- Worker for `runSub`; the flag records whether we are inside a run of
disallowed characters (whose single replacement underscore was already
emitted). -/
def runSubAux : Bool → List Char → List Char
  | _, [] => []
  | inRun, c :: cs =>
    if keepChar c then c :: runSubAux false cs
    else if inRun then runSubAux true cs
    else '_' :: runSubAux true cs

/-- Replace each maximal run of disallowed characters with a single
underscore (the spec's wording of the substitution step). -/
def runSub (l : List Char) : List Char :=
  runSubAux false l

/-! ## Model of `urllib.parse.urlparse` -/

/-- Valid scheme characters after the first (`scheme_chars` in
`urllib.parse`). -/
def schemeChar (c : Char) : Bool :=
  c.isAlphanum || c = '+' || c = '-' || c = '.'

/-- Scan the tail of a candidate scheme up to a colon; fails at the first
character that is neither a scheme character nor the colon. -/
def schemeTail : List Char → Option (List Char × List Char)
  | [] => none
  | c :: cs =>
    if c = ':' then some ([], cs)
    else if schemeChar c then (schemeTail cs).map (fun p => (c :: p.1, p.2))
    else none

/-- Split off `scheme:` as `urlsplit` does: first character ASCII
alphabetic, the rest scheme characters, up to the first colon; the scheme
is lowercased. -/
def takeScheme : List Char → Option (List Char × List Char)
  | [] => none
  | c :: cs =>
    if c.isAlpha then (schemeTail cs).map (fun p => ((c :: p.1).map Char.toLower, p.2))
    else none

/-- Characters ending the network-location part. -/
def netDelim (c : Char) : Bool :=
  c = '/' || c = '?' || c = '#'

/-- Split `//netloc` as `urlsplit` does, stopping at `/`, `?` or `#`. -/
def splitNetloc : List Char → List Char × List Char
  | '/' :: '/' :: rest =>
    (rest.takeWhile (fun c => !netDelim c), rest.dropWhile (fun c => !netDelim c))
  | l => ([], l)

/-- Split at the first occurrence of `m`; when `m` is absent the second
component is empty (Python `url.split(m, 1)` guarded by `m in url`). -/
def splitAtFirst (m : Char) (l : List Char) : List Char × List Char :=
  (l.takeWhile (fun c => c ≠ m), (l.dropWhile (fun c => c ≠ m)).drop 1)

/-- Schemes for which `urlparse` performs the `;params` split
(`uses_params` in `urllib.parse`). -/
def usesParams : List (List Char) :=
  ["".data, "ftp".data, "hdl".data, "prospero".data, "http".data,
   "imap".data, "https".data, "shttp".data, "rtsp".data, "rtspu".data,
   "sip".data, "sips".data, "mms".data, "sftp".data, "tel".data]

/-- `_splitparams`: split `;params` off the last path segment. -/
def splitParams (l : List Char) : List Char × List Char :=
  let seg := (l.reverse.takeWhile (fun c => c ≠ '/')).reverse
  if ';' ∈ seg then
    let p := splitAtFirst ';' seg
    (l.take (l.length - seg.length) ++ p.1, p.2)
  else (l, [])

/-- Result of `urllib.parse.urlparse`. -/
structure UrlParts where
  scheme : List Char
  netloc : List Char
  path : List Char
  params : List Char
  query : List Char
  fragment : List Char
deriving DecidableEq, Repr

/-- The scheme stage as a total split: no valid scheme leaves the URL
unchanged with an empty scheme. -/
def schemeSplit (l : List Char) : List Char × List Char :=
  match takeScheme l with
  | some p => p
  | none => ([], l)

/-- `urllib.parse.urlparse`, modelled for URLs free of ASCII whitespace
and control characters. -/
def urlparse (l : List Char) : UrlParts :=
  let sr := schemeSplit l
  let nr := splitNetloc sr.2
  let rf := splitAtFirst '#' nr.2
  let pq := splitAtFirst '?' rf.1
  let pp := if sr.1 ∈ usesParams ∧ ';' ∈ pq.1 then splitParams pq.1 else (pq.1, [])
  ⟨sr.1, nr.1, pp.1, pp.2, pq.2, rf.2⟩

/-! ## The scraper's pure functions -/

/-- `self.base_url` as stored by the constructor (`base_url.rstrip('/')`). -/
def storedBase (arg : String) : String :=
  rstripSlash arg

/-- `DocumentationScraper.normalize_url`. -/
def normalize_url (url : String) : String :=
  let p := urlparse url.data
  let normalized := pyRstrip '/' (p.scheme ++ "://".data ++ p.netloc ++ p.path)
  if p.query ≠ [] then String.mk (normalized ++ '?' :: p.query)
  else String.mk normalized

/-- The URL normalizer as the claim words it: strip exactly one trailing
slash from the path if present (instead of the code's `rstrip('/')`). -/
def normalize_url_one_slash (url : String) : String :=
  let p := urlparse url.data
  let path := if p.path.getLast? = some '/' then p.path.dropLast else p.path
  let normalized := p.scheme ++ "://".data ++ p.netloc ++ path
  if p.query ≠ [] then String.mk (normalized ++ '?' :: p.query)
  else String.mk normalized

/-- `DocumentationScraper.is_valid_url`; `base` is the stored
`self.base_url`.  A `None` argument is modelled by `is_valid_url_opt`. -/
def is_valid_url (base url : String) : Bool :=
  if url = "" then false
  else listStarts base.data (pyRstrip '/' url.data)

/-- `is_valid_url` on an optional argument: Python `if not url` is true
for both `None` and the empty string. -/
def is_valid_url_opt (base : String) (url : Option String) : Bool :=
  match url with
  | none => false
  | some u => is_valid_url base u

/-- `DocumentationScraper.url_to_filename`; `base` is the stored
`self.base_url`. -/
def url_to_filename (base url : String) : String :=
  let path := pyStrip '/' (pyReplaceAll base.data url.data)
  let path := if path = [] then "index".data else path
  let path := (splitAtFirst '?' path).1
  let filename := collapseUnd (subBad path)
  let filename := if listEnds ".mdx".data filename then filename
                  else filename ++ ".mdx".data
  String.mk filename

/-- The filename mapper as the original claim words it: remove only the
first occurrence of the base-prefix substring. -/
def url_to_filename_first (base url : String) : String :=
  let path := pyStrip '/' (replaceFirstOcc base.data url.data)
  let path := if path = [] then "index".data else path
  let path := (splitAtFirst '?' path).1
  let filename := collapseUnd (subBad path)
  let filename := if listEnds ".mdx".data filename then filename
                  else filename ++ ".mdx".data
  String.mk filename

/-- The filename mapper as the spec describes it, with the amended
"every occurrence" removal and the run-based substitution wording. -/
def url_to_filename_spec (base url : String) : String :=
  let path := pyStrip '/' (pyReplaceAll base.data url.data)
  let path := if path = [] then "index".data else path
  let path := (splitAtFirst '?' path).1
  let filename := collapseUnd (runSub path)
  let filename := if listEnds ".mdx".data filename then filename
                  else filename ++ ".mdx".data
  String.mk filename

/-- Python truthiness of an optional string (`None` and `""` are falsy). -/
def pyFalsy : Option String → Bool
  | none => true
  | some s => s = ""

/-- `DocumentationScraper.extract_title` over the texts the code reads:
`h1` is the first h1 element's text (when such an element exists),
`titleTag` the title element's text, `og` the `og:title` meta element
together with its optional `content` attribute.  `get_text(strip=True)`
and `.strip()` are modelled by `String.trim`. -/
def extract_title (h1 titleTag : Option String) (og : Option (Option String)) : String :=
  let t0 : Option String := none
  let t1 := match h1 with
    | some s => some s.trim
    | none => t0
  let t2 := if pyFalsy t1 then
      match titleTag with
      | some s => some s.trim
      | none => t1
    else t1
  let t3 := if pyFalsy t2 then
      match og with
      | some a => some ((a.getD "").trim)
      | none => t2
    else t2
  match t3 with
  | some s => if s = "" then "Untitled" else s
  | none => "Untitled"

/-- The title priority list as the spec words it: candidates in order,
already trimmed; a missing element contributes no candidate. -/
def titleCandidates (h1 titleTag : Option String) (og : Option (Option String)) :
    List (Option String) :=
  [h1.map (fun s => s.trim), titleTag.map (fun s => s.trim),
   og.map (fun a => (a.getD "").trim)]

/-- First candidate that is present and non-empty, else "Untitled". -/
def firstNonEmpty : List (Option String) → String
  | [] => "Untitled"
  | none :: rest => firstNonEmpty rest
  | some s :: rest => if s = "" then firstNonEmpty rest else s

/-- Configuration of the `html2text` collaborator. -/
structure H2TConfig where
  ignore_links : Bool
  body_width : Nat
deriving DecidableEq

/-- The converter configuration `html_to_mdx` sets
(`h.ignore_links = False`, `h.body_width = 0`). -/
def h2tConfig : H2TConfig :=
  { ignore_links := false, body_width := 0 }

/-- `DocumentationScraper.html_to_mdx`; `render cfg s` models the
`html2text` collaborator handling the serialized content `s` under
configuration `cfg`. -/
def html_to_mdx (render : H2TConfig → String → String)
    (html_content title url : String) : String :=
  let markdown := render h2tConfig html_content
  let markdown := markdown.trim
  let frontmatter := "---\ntitle: \"" ++ title ++ "\"\nurl: \"" ++ url ++ "\"\n---\n\n"
  frontmatter ++ markdown

/-! ## The crawl engine -/

/-- The record `scrape_page` returns for a successfully processed page. -/
structure PageResult where
  url : String
  title : String
  filename : String
  links_found : Nat
deriving DecidableEq, Repr

/-- What one fetched-and-parsed page supplies to the scraper: the texts
read by `extract_title`, and the absolute URLs of its anchors after
`urljoin` resolution (resolution is part of the environment model). -/
structure PageData where
  h1 : Option String
  titleTag : Option String
  ogTitle : Option (Option String)
  absLinks : List String

/-- The site being crawled: `none` models a failed fetch for that URL
(network error or non-2xx status), `some` a successful fetch and parse. -/
def Site : Type := String → Option PageData

/-- The mutable state of `DocumentationScraper` during `run`, plus the
list of files written (in order) and the results accumulated by `run`. -/
structure EngineState where
  urls_to_visit : Finset String
  visited_urls : Finset String
  results : List PageResult
  scraped_count : Nat
  files : List String
deriving DecidableEq

/-- `DocumentationScraper.extract_links`: normalize each resolved anchor
URL and keep the ones passing `is_valid_url`; the Python code collects
them into a set. -/
def extract_links (base : String) (absLinks : List String) : Finset String :=
  ((absLinks.map normalize_url).filter (fun u => is_valid_url base u)).toFinset

/-- `DocumentationScraper.scrape_page`.  Mirrors the source order: the
visited check, then insertion into `visited_urls`, then the fetch; on
success the file write, the counter, and the frontier update with
`links - visited_urls`. -/
def scrape_page (base : String) (site : Site) (url : String) (s : EngineState) :
    Option PageResult × EngineState :=
  if url ∈ s.visited_urls then (none, s)
  else
    let s1 := { s with visited_urls := insert url s.visited_urls }
    match site url with
    | none => (none, s1)
    | some page =>
      let title := extract_title page.h1 page.titleTag page.ogTitle
      let filename := url_to_filename base url
      let s2 := { s1 with files := s1.files ++ [filename],
                          scraped_count := s1.scraped_count + 1 }
      let links := extract_links base page.absLinks
      let newLinks := links \ s2.visited_urls
      let s3 := { s2 with urls_to_visit := s2.urls_to_visit ∪ newLinks }
      (some { url := url, title := title, filename := filename,
              links_found := links.card }, s3)

/-- One iteration of the `while self.urls_to_visit` loop in `run`: pop
`url`, scrape it, and append the result when one is produced. -/
def runIter (base : String) (site : Site) (url : String) (s : EngineState) :
    EngineState :=
  let s0 := { s with urls_to_visit := s.urls_to_visit.erase url }
  let r := scrape_page base site url s0
  match r.1 with
  | some pr => { r.2 with results := r.2.results ++ [pr] }
  | none => r.2

/-- One engine step that pops the (arbitrarily chosen) element `url`. -/
def StepAt (base : String) (site : Site) (url : String) (s s' : EngineState) : Prop :=
  url ∈ s.urls_to_visit ∧ s' = runIter base site url s

/-- One engine step with an arbitrary pop choice (`set.pop()` order is
unspecified). -/
def Step (base : String) (site : Site) (s s' : EngineState) : Prop :=
  ∃ url, StepAt base site url s s'

/-- The constructor's state: the frontier is seeded with the raw
`base_url` argument (the stored base is the rstripped copy), visited is
empty. -/
def initState (arg : String) : EngineState :=
  ⟨{arg}, ∅, [], 0, []⟩

/-- States the engine can reach from the constructor state with base-URL
argument `arg`, under any pop order. -/
def Reachable (arg : String) (site : Site) (s : EngineState) : Prop :=
  Relation.ReflTransGen (Step (storedBase arg) site) (initState arg) s

/-- A site with no fetchable pages (used to instantiate theorems). -/
def siteNone : Site := fun _ => none

/-! ## Predicates used in the claim statements -/

/-- Once a URL is visited and off the frontier, every later reachable
state keeps it visited and off the frontier. -/
def NeverRevisited (base : String) (site : Site) (u : String) (s1 : EngineState) : Prop :=
  ∀ s2, Relation.ReflTransGen (Step base site) s1 s2 →
    u ∈ s2.visited_urls ∧ u ∉ s2.urls_to_visit

/-- A URL the engine may hold: the raw seed, or an output of the URL
normalizer that passes the scope filter. -/
def UrlOk (arg u : String) : Prop :=
  u = arg ∨ ∃ a, u = normalize_url a ∧ is_valid_url (storedBase arg) u = true

/-- Every URL in the frontier or the visited set is a normalizer output
passing the scope filter, except possibly the raw seed. -/
def SetsFromNormalizer (arg : String) (s : EngineState) : Prop :=
  ∀ u, (u ∈ s.urls_to_visit ∨ u ∈ s.visited_urls) → UrlOk arg u

/-- The seed passes the scope filter whenever it is non-empty. -/
def ScopeSeed (arg : String) : Prop :=
  arg ≠ "" → is_valid_url (storedBase arg) arg = true

/-- Shape of every normalizer output: no `#` anywhere, and a trailing
slash only inside a preserved query. -/
def NormalizerShape : Prop :=
  ∀ a : String, '#' ∉ (normalize_url a).data ∧
    (listEnds "/".data (normalize_url a).data = true → '?' ∈ (normalize_url a).data)

/-- No infinite crawl run exists from the constructor state. -/
def Terminates (arg : String) (site : Site) : Prop :=
  ∀ f : ℕ → EngineState, f 0 = initState arg →
    (∀ n, Step (storedBase arg) site (f n) (f (n + 1))) → False

/-- Termination measure for the crawl loop, relative to a finite universe
`U` of possible URLs. -/
def crawlMeasure (U : Finset String) (s : EngineState) : Nat :=
  (U \ s.visited_urls).card * (U.card + 1) + s.urls_to_visit.card

/-! ## Basic lemmas about the string primitives -/

theorem listStarts_iff_take (pat l : List Char) :
    listStarts pat l = true ↔ l.take pat.length = pat := by
  induction pat generalizing l with
  | nil => simp [listStarts]
  | cons p ps ih =>
    cases l with
    | nil => simp [listStarts]
    | cons c cs =>
      simp only [listStarts, List.length_cons, List.take_succ_cons, List.cons.injEq,
        Bool.and_eq_true, decide_eq_true_eq, ih]
      constructor
      · rintro ⟨h1, h2⟩; exact ⟨h1.symm, h2⟩
      · rintro ⟨h1, h2⟩; exact ⟨h1.symm, h2⟩

theorem listStarts_append_self (l x : List Char) :
    listStarts l (l ++ x) = true := by
  induction l with
  | nil => simp [listStarts]
  | cons c cs ih => simp [listStarts, ih]

theorem listStarts_self (l : List Char) : listStarts l l = true := by
  have h := listStarts_append_self l []
  simpa using h

theorem listStarts_head_ne (p c : Char) (ps cs : List Char) (h : p ≠ c) :
    listStarts (p :: ps) (c :: cs) = false := by
  simp [listStarts, h]

theorem dropWhile_append_singleton (p : Char → Bool) (l : List Char) (a : Char)
    (ha : p a = false) : (l ++ [a]).dropWhile p = l.dropWhile p ++ [a] := by
  induction l with
  | nil => simp [List.dropWhile, ha]
  | cons c cs ih =>
    by_cases hc : p c
    · simp [List.dropWhile, hc, ih]
    · simp [List.dropWhile, hc]

theorem pyRstrip_cons_ne (c a : Char) (l : List Char) (ha : a ≠ c) :
    pyRstrip c (a :: l) = a :: pyRstrip c l := by
  have hpa : (decide (a = c)) = false := by simpa using ha
  simp only [pyRstrip, List.reverse_cons]
  rw [dropWhile_append_singleton _ _ _ hpa]
  simp

theorem goRepl_length_append (pat x rest : List Char) :
    goRepl pat x.length (x ++ rest) = goRepl pat 0 rest := by
  induction x with
  | nil => rfl
  | cons c cs ih => simpa [goRepl] using ih

theorem pyReplaceAll_append_self (pat rest : List Char) (hp : pat ≠ []) :
    pyReplaceAll pat (pat ++ rest) = pyReplaceAll pat rest := by
  cases pat with
  | nil => exact absurd rfl hp
  | cons p ps =>
    show goRepl (p :: ps) 0 (p :: (ps ++ rest)) = goRepl (p :: ps) 0 rest
    rw [goRepl, if_pos ⟨hp, by rw [← List.cons_append]; exact listStarts_append_self _ _⟩]
    have hlen : (p :: ps).length - 1 = ps.length := by simp
    rw [hlen]
    exact goRepl_length_append _ _ _

theorem pyReplaceAll_cons_head_notin (pat : List Char) (c : Char) (cs : List Char)
    (hc : c ∉ pat) :
    pyReplaceAll pat (c :: cs) = c :: pyReplaceAll pat cs := by
  show goRepl pat 0 (c :: cs) = c :: goRepl pat 0 cs
  rw [goRepl, if_neg]
  rintro ⟨hne, hstart⟩
  cases pat with
  | nil => exact hne rfl
  | cons p ps =>
    have hpc : p = c := by
      by_contra hpc
      rw [listStarts_head_ne p c ps cs hpc] at hstart
      exact Bool.false_ne_true hstart
    exact hc (hpc ▸ List.mem_cons_self p ps)

theorem splitAtFirst_cons_self (m : Char) (l : List Char) :
    splitAtFirst m (m :: l) = ([], l) := by
  simp [splitAtFirst, List.takeWhile, List.dropWhile]

theorem data_ne_nil_of_ne_empty (s : String) (h : s ≠ "") : s.data ≠ [] := by
  intro hd
  apply h
  cases s
  simp_all [String.ext_iff]

theorem mem_of_mem_dropWhile (p : Char → Bool) (l : List Char) (a : Char)
    (h : a ∈ l.dropWhile p) : a ∈ l := by
  induction l with
  | nil => simpa using h
  | cons c cs ih =>
    by_cases hc : p c
    · rw [List.dropWhile_cons_of_pos hc] at h
      exact List.mem_cons_of_mem _ (ih h)
    · rw [List.dropWhile_cons_of_neg hc] at h
      exact h

theorem mem_of_mem_takeWhile (p : Char → Bool) (l : List Char) (a : Char)
    (h : a ∈ l.takeWhile p) : a ∈ l := by
  induction l with
  | nil => simpa using h
  | cons c cs ih =>
    by_cases hc : p c
    · rw [List.takeWhile_cons_of_pos hc] at h
      rcases List.mem_cons.mp h with h | h
      · exact h ▸ List.mem_cons_self _ _
      · exact List.mem_cons_of_mem _ (ih h)
    · rw [List.takeWhile_cons_of_neg hc] at h
      simp at h

theorem prop_of_mem_takeWhile (p : Char → Bool) (l : List Char) (a : Char)
    (h : a ∈ l.takeWhile p) : p a = true := by
  induction l with
  | nil => simpa using h
  | cons c cs ih =>
    by_cases hc : p c
    · rw [List.takeWhile_cons_of_pos hc] at h
      rcases List.mem_cons.mp h with h | h
      · exact h ▸ hc
      · exact ih h
    · rw [List.takeWhile_cons_of_neg hc] at h
      simp at h

theorem mem_of_mem_pyRstrip (c a : Char) (l : List Char) (h : a ∈ pyRstrip c l) :
    a ∈ l := by
  unfold pyRstrip at h
  rw [List.mem_reverse] at h
  have := mem_of_mem_dropWhile _ _ _ h
  rwa [List.mem_reverse] at this

theorem toNat_ofNat_valid (n : Nat) (h : n.isValidChar) :
    (Char.ofNat n).toNat = n := by
  unfold Char.ofNat Char.toNat
  rw [dif_pos h]
  unfold Char.ofNatAux
  simp [UInt32.toNat, BitVec.toNat_ofNatLt]

theorem toLower_ne_hash (c : Char) (h : c ≠ '#') : Char.toLower c ≠ '#' := by
  unfold Char.toLower
  by_cases hn : c.toNat ≥ 65 ∧ c.toNat ≤ 90
  · rw [if_pos hn]
    intro he
    have hv : (c.toNat + 32).isValidChar := Or.inl (by omega)
    have h1 := toNat_ofNat_valid (c.toNat + 32) hv
    rw [he] at h1
    have h2 : ('#' : Char).toNat = 35 := by decide
    omega
  · rw [if_neg hn]
    exact h

/-! ## Characterizations of one engine iteration -/

theorem runIter_of_visited (base : String) (site : Site) (url : String)
    (s : EngineState) (h : url ∈ s.visited_urls) :
    runIter base site url s = { s with urls_to_visit := s.urls_to_visit.erase url } := by
  simp [runIter, scrape_page, h]

theorem runIter_of_fail (base : String) (site : Site) (url : String)
    (s : EngineState) (h1 : url ∉ s.visited_urls) (h2 : site url = none) :
    runIter base site url s =
      { s with urls_to_visit := s.urls_to_visit.erase url,
               visited_urls := insert url s.visited_urls } := by
  simp [runIter, scrape_page, h1, h2]

theorem runIter_of_success (base : String) (site : Site) (url : String)
    (s : EngineState) (page : PageData) (h1 : url ∉ s.visited_urls)
    (h2 : site url = some page) :
    runIter base site url s =
      { urls_to_visit := s.urls_to_visit.erase url ∪
          (extract_links base page.absLinks \ insert url s.visited_urls),
        visited_urls := insert url s.visited_urls,
        results := s.results ++
          [{ url := url,
             title := extract_title page.h1 page.titleTag page.ogTitle,
             filename := url_to_filename base url,
             links_found := (extract_links base page.absLinks).card }],
        scraped_count := s.scraped_count + 1,
        files := s.files ++ [url_to_filename base url] } := by
  simp [runIter, scrape_page, h1, h2]

theorem stepAt_visited_grows (base : String) (site : Site) (url : String)
    (s s' : EngineState) (hstep : StepAt base site url s s') :
    s.visited_urls ⊆ s'.visited_urls ∧ url ∈ s'.visited_urls := by
  rcases hstep with ⟨hmem, rfl⟩
  by_cases hv : url ∈ s.visited_urls
  · rw [runIter_of_visited base site url s hv]
    exact ⟨Finset.Subset.refl _, hv⟩
  · cases hsite : site url with
    | none =>
      rw [runIter_of_fail base site url s hv hsite]
      exact ⟨Finset.subset_insert _ _, Finset.mem_insert_self _ _⟩
    | some page =>
      rw [runIter_of_success base site url s page hv hsite]
      exact ⟨Finset.subset_insert _ _, Finset.mem_insert_self _ _⟩

theorem stepAt_disjoint (base : String) (site : Site) (url : String)
    (s s' : EngineState) (hd : Disjoint s.urls_to_visit s.visited_urls)
    (hstep : StepAt base site url s s') :
    Disjoint s'.urls_to_visit s'.visited_urls := by
  rcases hstep with ⟨hmem, rfl⟩
  have herase : s.urls_to_visit.erase url ⊆ s.urls_to_visit := Finset.erase_subset _ _
  by_cases hv : url ∈ s.visited_urls
  · rw [runIter_of_visited base site url s hv]
    exact Disjoint.mono_left herase hd
  · cases hsite : site url with
    | none =>
      rw [runIter_of_fail base site url s hv hsite]
      rw [Finset.disjoint_insert_right]
      exact ⟨Finset.not_mem_erase _ _, Disjoint.mono_left herase hd⟩
    | some page =>
      rw [runIter_of_success base site url s page hv hsite]
      rw [Finset.disjoint_union_left]
      constructor
      · rw [Finset.disjoint_insert_right]
        exact ⟨Finset.not_mem_erase _ _, Disjoint.mono_left herase hd⟩
      · exact Finset.sdiff_disjoint

theorem reachable_disjoint (arg : String) (site : Site) (s : EngineState)
    (h : Reachable arg site s) :
    Disjoint s.urls_to_visit s.visited_urls := by
  induction h with
  | refl => simp [initState]
  | tail _ hstep ih =>
    obtain ⟨url, hs⟩ := hstep
    exact stepAt_disjoint _ _ _ _ _ ih hs

/-! ## Claim theorems for the pure string functions -/

/-- C5: the scope filter `is_valid_url` returns true iff the input is
non-empty and, after stripping its trailing slashes, starts with the
stored base prefix literally; and it behaves as claimed on the spec's
examples, with `None` input also rejected. -/
theorem is_valid_url_iff_and_examples :
    (∀ base url : String, is_valid_url base url = true ↔
        (url ≠ "" ∧ (pyRstrip '/' url.data).take base.data.length = base.data)) ∧
    (∀ base : String, is_valid_url_opt base none = false) ∧
    is_valid_url "https://x.com/docs" "https://x.com/docs/page1" = true ∧
    is_valid_url "https://x.com/docs" "https://x.com/other" = false ∧
    is_valid_url "https://x.com/docs" "" = false := by
  refine ⟨?_, ?_, by decide, by decide, by decide⟩
  · intro base url
    by_cases hu : url = ""
    · simp [is_valid_url, hu]
    · simp [is_valid_url, hu, listStarts_iff_take]
  · intro base
    rfl

/-- C8: title extraction returns the first present, non-empty-after-trim
candidate in the order first-h1, title element, og:title content, with
the fixed placeholder "Untitled" as last resort; in particular a page
with none of the three yields "Untitled". -/
theorem extract_title_priority :
    (∀ (h1 titleTag : Option String) (og : Option (Option String)),
        extract_title h1 titleTag og = firstNonEmpty (titleCandidates h1 titleTag og)) ∧
    extract_title none none none = "Untitled" := by
  refine ⟨?_, rfl⟩
  intro h1 titleTag og
  cases h1 <;> cases titleTag <;> cases og <;>
    simp only [extract_title, titleCandidates, firstNonEmpty, pyFalsy, Option.map_some,
      Option.map_none] <;>
    split_ifs <;>
    simp_all [firstNonEmpty]

/-- C9: the markup converter emits exactly the header block with the
double-quote-wrapped `title` and `url` values, a blank line, and the
rendered body trimmed of leading and trailing whitespace; the converter
configuration disables hard line-wrapping (`body_width = 0`) and keeps
links; and the output is a function of the inputs alone, so re-running
it yields byte-identical output. -/
theorem html_to_mdx_structure :
    (∀ (render : H2TConfig → String → String) (html_content title url : String),
        html_to_mdx render html_content title url =
          "---\ntitle: \"" ++ title ++ "\"\nurl: \"" ++ url ++ "\"\n---\n\n" ++
            (render h2tConfig html_content).trim) ∧
    h2tConfig.body_width = 0 ∧
    h2tConfig.ignore_links = false ∧
    (∀ (render : H2TConfig → String → String) (html_content title url : String),
        html_to_mdx render html_content title url =
          html_to_mdx render html_content title url) := by
  exact ⟨fun _ _ _ _ => rfl, rfl, rfl, fun _ _ _ _ => rfl⟩

/-- C10: a URL that is the base prefix followed only by a query string
maps to the bare extension ".mdx": the empty-remainder check runs before
the query strip, so the query-only remainder escapes the "index"
substitution. -/
theorem query_only_url_gives_bare_mdx (base q : String) (hb : base ≠ "")
    (hq : '?' ∉ base.data) :
    url_to_filename base (base ++ "?" ++ q) = ".mdx" := by
  have hdata : (base ++ "?" ++ q).data = base.data ++ '?' :: q.data := by
    simp [String.data_append]
  have hbd : base.data ≠ [] := data_ne_nil_of_ne_empty base hb
  unfold url_to_filename
  rw [hdata, pyReplaceAll_append_self _ _ hbd,
    pyReplaceAll_cons_head_notin _ _ _ hq]
  have hstrip : pyStrip '/' ('?' :: pyReplaceAll base.data q.data) =
      '?' :: pyRstrip '/' (pyReplaceAll base.data q.data) := by
    unfold pyStrip pyLstrip
    rw [List.dropWhile_cons_of_neg (by simp)]
    exact pyRstrip_cons_ne _ _ _ (by decide)
  rw [hstrip]
  simp only [reduceCtorEq, if_false]
  rw [splitAtFirst_cons_self]
  rfl

/-- C10 witness: the concrete example from the claim, and the result is
not "index.mdx". -/
theorem query_only_url_gives_bare_mdx_witness :
    url_to_filename "https://x.com/docs" ("https://x.com/docs" ++ "?" ++ "x=1") = ".mdx" ∧
    (".mdx" : String) ≠ "index.mdx" :=
  ⟨query_only_url_gives_bare_mdx "https://x.com/docs" "x=1" (by decide) (by decide),
   by decide⟩

/-- C1: frontier and visited are disjoint at every reachable state; a
step popping `url` adds it to `visited_urls` (also when the fetch fails,
since insertion happens before the fetch), `visited_urls` only grows,
and the resulting state is again disjoint. -/
theorem frontier_visited_disjoint (arg : String) (site : Site) (url : String)
    (s s' : EngineState) (hreach : Reachable arg site s)
    (hstep : StepAt (storedBase arg) site url s s') :
    Disjoint s.urls_to_visit s.visited_urls ∧
    Disjoint s'.urls_to_visit s'.visited_urls ∧
    s.visited_urls ⊆ s'.visited_urls ∧
    url ∈ s'.visited_urls := by
  have hd := reachable_disjoint arg site s hreach
  have hg := stepAt_visited_grows (storedBase arg) site url s s' hstep
  exact ⟨hd, stepAt_disjoint (storedBase arg) site url s s' hd hstep, hg.1, hg.2⟩

/-- C1 witness: the first step of a crawl of the base URL
"https://x.com/a" against a site whose fetches all fail. -/
theorem frontier_visited_disjoint_witness :
    Disjoint (initState "https://x.com/a").urls_to_visit
      (initState "https://x.com/a").visited_urls ∧
    Disjoint (runIter (storedBase "https://x.com/a") siteNone "https://x.com/a"
        (initState "https://x.com/a")).urls_to_visit
      (runIter (storedBase "https://x.com/a") siteNone "https://x.com/a"
        (initState "https://x.com/a")).visited_urls ∧
    (initState "https://x.com/a").visited_urls ⊆
      (runIter (storedBase "https://x.com/a") siteNone "https://x.com/a"
        (initState "https://x.com/a")).visited_urls ∧
    "https://x.com/a" ∈ (runIter (storedBase "https://x.com/a") siteNone "https://x.com/a"
        (initState "https://x.com/a")).visited_urls :=
  frontier_visited_disjoint "https://x.com/a" siteNone "https://x.com/a"
    (initState "https://x.com/a") _ Relation.ReflTransGen.refl
    ⟨by decide, rfl⟩

theorem stepAt_dead_stays_dead (base : String) (site : Site) (u v : String)
    (s s' : EngineState) (hstep : StepAt base site v s s')
    (hin : u ∈ s.visited_urls) (hout : u ∉ s.urls_to_visit) :
    u ∈ s'.visited_urls ∧ u ∉ s'.urls_to_visit := by
  rcases hstep with ⟨hmem, rfl⟩
  have hne : u ∉ s.urls_to_visit.erase v := fun hu => hout (Finset.erase_subset _ _ hu)
  by_cases hv : v ∈ s.visited_urls
  · rw [runIter_of_visited base site v s hv]
    exact ⟨hin, hne⟩
  · cases hsite : site v with
    | none =>
      rw [runIter_of_fail base site v s hv hsite]
      exact ⟨Finset.mem_insert_of_mem hin, hne⟩
    | some page =>
      rw [runIter_of_success base site v s page hv hsite]
      refine ⟨Finset.mem_insert_of_mem hin, ?_⟩
      rw [Finset.mem_union]
      rintro (h | h)
      · exact hne h
      · rw [Finset.mem_sdiff] at h
        exact h.2 (Finset.mem_insert_of_mem hin)

theorem dead_stays_dead (base : String) (site : Site) (u : String)
    (s1 s2 : EngineState) (h12 : Relation.ReflTransGen (Step base site) s1 s2)
    (hin : u ∈ s1.visited_urls) (hout : u ∉ s1.urls_to_visit) :
    u ∈ s2.visited_urls ∧ u ∉ s2.urls_to_visit := by
  induction h12 with
  | refl => exact ⟨hin, hout⟩
  | tail _ hstep ih =>
    obtain ⟨v, hs⟩ := hstep
    exact stepAt_dead_stays_dead base site u v _ _ hs ih.1 ih.2

/-- C7: when the fetch of a popped URL fails, the step produces no
PageResult, writes no file, leaves the scraped counter unchanged, keeps
the URL in `visited_urls` and off the frontier, and no later step (link
discovery included) ever returns it to the frontier; the step yields a
well-formed successor state so the loop continues with the remaining
frontier. -/
theorem fetch_failure_skips_url (base : String) (site : Site) (url : String)
    (s s' : EngineState) (hfail : site url = none)
    (hstep : StepAt base site url s s') :
    s'.results = s.results ∧ s'.files = s.files ∧
    s'.scraped_count = s.scraped_count ∧
    url ∈ s'.visited_urls ∧ url ∉ s'.urls_to_visit ∧
    s'.urls_to_visit = s.urls_to_visit.erase url ∧
    NeverRevisited base site url s' := by
  have hcore : s'.results = s.results ∧ s'.files = s.files ∧
      s'.scraped_count = s.scraped_count ∧
      url ∈ s'.visited_urls ∧ s'.urls_to_visit = s.urls_to_visit.erase url := by
    rcases hstep with ⟨hmem, rfl⟩
    by_cases hv : url ∈ s.visited_urls
    · rw [runIter_of_visited base site url s hv]
      exact ⟨rfl, rfl, rfl, hv, rfl⟩
    · rw [runIter_of_fail base site url s hv hfail]
      exact ⟨rfl, rfl, rfl, Finset.mem_insert_self _ _, rfl⟩
  obtain ⟨h1, h2, h3, h4, h5⟩ := hcore
  have hout : url ∉ s'.urls_to_visit := by
    rw [h5]; exact Finset.not_mem_erase _ _
  refine ⟨h1, h2, h3, h4, hout, h5, ?_⟩
  intro s2 h12
  exact dead_stays_dead base site url s' s2 h12 h4 hout

/-- C7 witness: the seed URL of a crawl whose fetches all fail. -/
theorem fetch_failure_skips_url_witness :
    (runIter (storedBase "https://x.com/a") siteNone "https://x.com/a"
        (initState "https://x.com/a")).results = (initState "https://x.com/a").results ∧
    (runIter (storedBase "https://x.com/a") siteNone "https://x.com/a"
        (initState "https://x.com/a")).files = (initState "https://x.com/a").files ∧
    (runIter (storedBase "https://x.com/a") siteNone "https://x.com/a"
        (initState "https://x.com/a")).scraped_count =
      (initState "https://x.com/a").scraped_count ∧
    "https://x.com/a" ∈ (runIter (storedBase "https://x.com/a") siteNone "https://x.com/a"
        (initState "https://x.com/a")).visited_urls ∧
    "https://x.com/a" ∉ (runIter (storedBase "https://x.com/a") siteNone "https://x.com/a"
        (initState "https://x.com/a")).urls_to_visit ∧
    (runIter (storedBase "https://x.com/a") siteNone "https://x.com/a"
        (initState "https://x.com/a")).urls_to_visit =
      (initState "https://x.com/a").urls_to_visit.erase "https://x.com/a" ∧
    NeverRevisited (storedBase "https://x.com/a") siteNone "https://x.com/a"
      (runIter (storedBase "https://x.com/a") siteNone "https://x.com/a"
        (initState "https://x.com/a")) :=
  fetch_failure_skips_url (storedBase "https://x.com/a") siteNone "https://x.com/a"
    (initState "https://x.com/a") _ rfl ⟨by decide, rfl⟩

/-- C3 counterexample: with constructor argument "https://x.com/a/" the
initial frontier holds the raw seed, which is not a fixed point of the
URL normalizer (it keeps its trailing slash). -/
theorem seed_not_normalized_counterexample :
    "https://x.com/a/" ∈ (initState "https://x.com/a/").urls_to_visit ∧
    normalize_url "https://x.com/a/" ≠ "https://x.com/a/" ∧
    normalize_url "https://x.com/a/" = "https://x.com/a" := by
  refine ⟨by decide, by decide, by decide⟩

/-- C4 counterexample: on "https://x.com/a//" the code strips both
trailing slashes, while stripping exactly one (as the claim words it)
would leave "https://x.com/a/". -/
theorem normalize_two_slashes_counterexample :
    normalize_url "https://x.com/a//" = "https://x.com/a" ∧
    normalize_url_one_slash "https://x.com/a//" = "https://x.com/a/" ∧
    normalize_url "https://x.com/a//" ≠ normalize_url_one_slash "https://x.com/a//" := by
  refine ⟨by decide, by decide, by decide⟩

/-! ## Machinery for C3: provenance and shape of set members -/

theorem mem_extract_links (base : String) (links : List String) (u : String)
    (h : u ∈ extract_links base links) :
    (∃ a, u = normalize_url a) ∧ is_valid_url base u = true := by
  unfold extract_links at h
  rw [List.mem_toFinset, List.mem_filter] at h
  obtain ⟨hmap, hvalid⟩ := h
  rw [List.mem_map] at hmap
  obtain ⟨a, _, rfl⟩ := hmap
  exact ⟨⟨a, rfl⟩, hvalid⟩

theorem stepAt_urlOk (arg : String) (site : Site) (v : String) (s s' : EngineState)
    (hstep : StepAt (storedBase arg) site v s s')
    (hok : SetsFromNormalizer arg s) :
    SetsFromNormalizer arg s' := by
  rcases hstep with ⟨hmem, rfl⟩
  have hfr : ∀ u, u ∈ s.urls_to_visit.erase v → UrlOk arg u :=
    fun u hu => hok u (Or.inl (Finset.erase_subset _ _ hu))
  by_cases hv : v ∈ s.visited_urls
  · rw [runIter_of_visited (storedBase arg) site v s hv]
    rintro u (hu | hu)
    · exact hfr u hu
    · exact hok u (Or.inr hu)
  · cases hsite : site v with
    | none =>
      rw [runIter_of_fail (storedBase arg) site v s hv hsite]
      rintro u (hu | hu)
      · exact hfr u hu
      · rcases Finset.mem_insert.mp hu with rfl | hu
        · exact hok u (Or.inl hmem)
        · exact hok u (Or.inr hu)
    | some page =>
      rw [runIter_of_success (storedBase arg) site v s page hv hsite]
      rintro u (hu | hu)
      · rcases Finset.mem_union.mp hu with hu | hu
        · exact hfr u hu
        · rw [Finset.mem_sdiff] at hu
          have := mem_extract_links (storedBase arg) page.absLinks u hu.1
          exact Or.inr ⟨this.1.choose, this.1.choose_spec, this.2⟩
      · rcases Finset.mem_insert.mp hu with rfl | hu
        · exact hok u (Or.inl hmem)
        · exact hok u (Or.inr hu)

theorem reachable_urlOk (arg : String) (site : Site) (s : EngineState)
    (h : Reachable arg site s) : SetsFromNormalizer arg s := by
  induction h with
  | refl =>
    rintro u (hu | hu)
    · rw [initState] at hu
      exact Or.inl (Finset.mem_singleton.mp hu)
    · rw [initState] at hu
      simp at hu
  | tail _ hstep ih =>
    obtain ⟨v, hs⟩ := hstep
    exact stepAt_urlOk arg site v _ _ hs ih

theorem scopeSeed_holds (arg : String) : ScopeSeed arg := by
  intro harg
  unfold is_valid_url
  rw [if_neg harg]
  show listStarts (storedBase arg).data (pyRstrip '/' arg.data) = true
  have : (storedBase arg).data = pyRstrip '/' arg.data := rfl
  rw [this]
  exact listStarts_self _

theorem schemeTail_chars (l : List Char) :
    ∀ s r, schemeTail l = some (s, r) → ∀ c ∈ s, schemeChar c = true := by
  induction l with
  | nil => intro s r h; simp [schemeTail] at h
  | cons c cs ih =>
    intro s r h
    simp only [schemeTail] at h
    by_cases hc : c = ':'
    · rw [if_pos hc] at h
      simp only [Option.some.injEq, Prod.mk.injEq] at h
      rw [← h.1]
      intro d hd
      simp at hd
    · rw [if_neg hc] at h
      by_cases hsc : schemeChar c
      · rw [if_pos hsc] at h
        cases hst : schemeTail cs with
        | none => rw [hst] at h; simp at h
        | some p =>
          rw [hst] at h
          simp only [Option.map_some', Option.some.injEq, Prod.mk.injEq] at h
          rw [← h.1]
          intro d hd
          rcases List.mem_cons.mp hd with rfl | hd
          · exact hsc
          · exact ih p.1 p.2 (by rw [hst]) d hd
      · rw [if_neg hsc] at h
        simp at h

theorem takeScheme_no_hash (l : List Char) :
    ∀ s r, takeScheme l = some (s, r) → '#' ∉ s := by
  intro s r h
  cases l with
  | nil => simp [takeScheme] at h
  | cons c cs =>
    simp only [takeScheme] at h
    by_cases hca : c.isAlpha
    · rw [if_pos hca] at h
      cases hst : schemeTail cs with
      | none => rw [hst] at h; simp at h
      | some p =>
        rw [hst] at h
        simp only [Option.map_some', Option.some.injEq, Prod.mk.injEq] at h
        rw [← h.1]
        intro hmem
        rw [List.mem_map] at hmem
        obtain ⟨d, hd, hdl⟩ := hmem
        rcases List.mem_cons.mp hd with rfl | hd
        · have hne : d ≠ '#' := by
            intro he
            rw [he] at hca
            exact absurd hca (by decide)
          exact toLower_ne_hash d hne hdl
        · have hsc := schemeTail_chars cs p.1 p.2 (by rw [hst]) d hd
          have hne : d ≠ '#' := by
            intro he
            rw [he] at hsc
            exact absurd hsc (by decide)
          exact toLower_ne_hash d hne hdl
    · rw [if_neg hca] at h
      simp at h

theorem splitParams_mem (l : List Char) (a : Char)
    (h : a ∈ (splitParams l).1) : a ∈ l := by
  unfold splitParams at h
  by_cases hsem : ';' ∈ (l.reverse.takeWhile (fun c => c ≠ '/')).reverse
  · rw [if_pos hsem] at h
    rcases List.mem_append.mp h with h | h
    · exact List.take_subset _ _ h
    · have h1 := mem_of_mem_takeWhile _ _ _ h
      rw [List.mem_reverse] at h1
      have h2 := mem_of_mem_takeWhile _ _ _ h1
      rwa [List.mem_reverse] at h2
  · rw [if_neg hsem] at h
    exact h

theorem urlparse_no_hash (l : List Char) :
    '#' ∉ (urlparse l).scheme ∧ '#' ∉ (urlparse l).netloc ∧
    '#' ∉ (urlparse l).path ∧ '#' ∉ (urlparse l).query := by
  have hfr1 : ∀ a ∈ (splitAtFirst '#' (splitNetloc (schemeSplit l).2).2).1, a ≠ '#' := by
    intro a ha
    have := prop_of_mem_takeWhile _ _ _ ha
    simpa using this
  refine ⟨?_, ?_, ?_, ?_⟩
  · show '#' ∉ (schemeSplit l).1
    unfold schemeSplit
    cases hts : takeScheme l with
    | none => simp
    | some p =>
      simpa using takeScheme_no_hash l p.1 p.2 (by rw [hts])
  · show '#' ∉ (splitNetloc (schemeSplit l).2).1
    cases hsp : (schemeSplit l).2 with
    | nil => simp [splitNetloc]
    | cons c cs =>
      cases cs with
      | nil =>
        intro hmem
        have : splitNetloc [c] = ([], [c]) := by
          unfold splitNetloc
          split
          · rename_i heq; simp at heq
          · rfl
        rw [this] at hmem
        simp at hmem
      | cons d ds =>
        by_cases hcd : c = '/' ∧ d = '/'
        · obtain ⟨rfl, rfl⟩ := hcd
          intro hmem
          have hprop := prop_of_mem_takeWhile _ _ _ hmem
          simp [netDelim] at hprop
        · intro hmem
          have : splitNetloc (c :: d :: ds) = ([], c :: d :: ds) := by
            unfold splitNetloc
            split
            · rename_i heq
              injection heq with h1 h2
              injection h2 with h2 h3
              exact absurd ⟨h1, h2⟩ hcd
            · rfl
          rw [this] at hmem
          simp at hmem
  · show '#' ∉ (if (schemeSplit l).1 ∈ usesParams ∧
        ';' ∈ (splitAtFirst '?' (splitAtFirst '#' (splitNetloc (schemeSplit l).2).2).1).1
        then splitParams (splitAtFirst '?' (splitAtFirst '#' (splitNetloc (schemeSplit l).2).2).1).1
        else ((splitAtFirst '?' (splitAtFirst '#' (splitNetloc (schemeSplit l).2).2).1).1, [])).1
    intro hmem
    have hin : '#' ∈ (splitAtFirst '?' (splitAtFirst '#' (splitNetloc (schemeSplit l).2).2).1).1 := by
      by_cases hcond : (schemeSplit l).1 ∈ usesParams ∧
          ';' ∈ (splitAtFirst '?' (splitAtFirst '#' (splitNetloc (schemeSplit l).2).2).1).1
      · rw [if_pos hcond] at hmem
        exact splitParams_mem _ _ hmem
      · rw [if_neg hcond] at hmem
        exact hmem
    have hin2 := mem_of_mem_takeWhile _ _ _ hin
    exact hfr1 _ hin2 rfl
  · show '#' ∉ (splitAtFirst '?' (splitAtFirst '#' (splitNetloc (schemeSplit l).2).2).1).2
    intro hmem
    unfold splitAtFirst at hmem
    have h1 := List.drop_subset 1 _ hmem
    have h2 := mem_of_mem_dropWhile _ _ _ h1
    exact hfr1 _ h2 rfl

theorem head_of_dropWhile_false (p : Char → Bool) (l : List Char) (c : Char)
    (cs : List Char) (h : l.dropWhile p = c :: cs) : p c = false := by
  induction l with
  | nil => simp at h
  | cons a as ih =>
    by_cases ha : p a
    · rw [List.dropWhile_cons_of_pos ha] at h
      exact ih h
    · rw [List.dropWhile_cons_of_neg ha] at h
      injection h with h1 _
      rw [← h1]
      exact Bool.of_not_eq_true ha

theorem normalizerShape_holds : NormalizerShape := by
  intro a
  have hparts := urlparse_no_hash a.data
  set p := urlparse a.data with hp
  have hassembled : '#' ∉ pyRstrip '/' (p.scheme ++ "://".data ++ p.netloc ++ p.path) := by
    intro hmem
    have := mem_of_mem_pyRstrip _ _ _ hmem
    rcases List.mem_append.mp this with hthis | hthis
    · rcases List.mem_append.mp hthis with hthis | hthis
      · rcases List.mem_append.mp hthis with hthis | hthis
        · exact hparts.1 hthis
        · simp at hthis
      · exact hparts.2.1 hthis
    · exact hparts.2.2.1 hthis
  constructor
  · show '#' ∉ (normalize_url a).data
    unfold normalize_url
    rw [← hp]
    by_cases hq : p.query ≠ []
    · rw [if_pos hq]
      intro hmem
      have hmem2 : '#' ∈ pyRstrip '/' (p.scheme ++ "://".data ++ p.netloc ++ p.path) ∨
          '#' ∈ '?' :: p.query := List.mem_append.mp hmem
      rcases hmem2 with h | h
      · exact hassembled h
      · rcases List.mem_cons.mp h with h | h
        · exact absurd h (by decide)
        · exact hparts.2.2.2 h
    · rw [if_neg hq]
      exact hassembled
  · show listEnds "/".data (normalize_url a).data = true → '?' ∈ (normalize_url a).data
    unfold normalize_url
    rw [← hp]
    by_cases hq : p.query ≠ []
    · rw [if_pos hq]
      intro _
      show '?' ∈ pyRstrip '/' (p.scheme ++ "://".data ++ p.netloc ++ p.path) ++ '?' :: p.query
      exact List.mem_append.mpr (Or.inr (List.mem_cons_self _ _))
    · rw [if_neg hq]
      intro hends
      exfalso
      have : listEnds "/".data (pyRstrip '/' (p.scheme ++ "://".data ++ p.netloc ++ p.path)) = true := hends
      unfold listEnds listStarts at this
      set A := (p.scheme ++ "://".data ++ p.netloc ++ p.path).reverse with hA
      have hrev : (pyRstrip '/' (p.scheme ++ "://".data ++ p.netloc ++ p.path)).reverse =
          A.dropWhile (fun d => d = '/') := by
        unfold pyRstrip
        rw [List.reverse_reverse, hA]
      rw [hrev] at this
      cases hdw : A.dropWhile (fun d => d = '/') with
      | nil => rw [hdw] at this; simp [listStarts] at this
      | cons c cs =>
        rw [hdw] at this
        have hhead := head_of_dropWhile_false _ _ _ _ hdw
        simp only [List.reverse_cons, List.reverse_nil, List.nil_append] at this
        unfold listStarts at this
        simp only [Bool.and_eq_true, decide_eq_true_eq] at this
        rw [this.1] at hhead
        simp at hhead

/-- C3 amended: at every reachable state, every URL in the frontier or
the visited set is either the raw constructor seed (placed in the
frontier verbatim, hence not necessarily normalized) or an output of the
URL normalizer that passes the scope filter; the seed itself passes the
scope filter whenever it is non-empty; and every normalizer output
contains no `#` and ends in a slash only when that slash sits inside a
preserved query. -/
theorem frontier_visited_normalized (arg : String) (site : Site) (s : EngineState)
    (hreach : Reachable arg site s) :
    SetsFromNormalizer arg s ∧ ScopeSeed arg ∧ NormalizerShape :=
  ⟨reachable_urlOk arg site s hreach, scopeSeed_holds arg, normalizerShape_holds⟩

/-- C3 witness: the constructor state of a crawl of "https://x.com/docs". -/
theorem frontier_visited_normalized_witness :
    SetsFromNormalizer "https://x.com/docs" (initState "https://x.com/docs") ∧
    ScopeSeed "https://x.com/docs" ∧ NormalizerShape :=
  frontier_visited_normalized "https://x.com/docs" siteNone
    (initState "https://x.com/docs") Relation.ReflTransGen.refl

/-- C6 counterexample: `str.replace` removes every occurrence of the base
prefix, not just the first; on a URL containing the base twice the code
yields "a_b.mdx" while first-occurrence removal would yield
"a_https_x.com_docs_b.mdx". -/
theorem filename_every_occurrence_counterexample :
    url_to_filename "https://x.com/docs" "https://x.com/docs/a/https://x.com/docs/b" =
      "a_b.mdx" ∧
    url_to_filename_first "https://x.com/docs" "https://x.com/docs/a/https://x.com/docs/b" =
      "a_https_x.com_docs_b.mdx" ∧
    url_to_filename "https://x.com/docs" "https://x.com/docs/a/https://x.com/docs/b" ≠
      url_to_filename_first "https://x.com/docs" "https://x.com/docs/a/https://x.com/docs/b" := by
  refine ⟨by decide, by decide, by decide⟩

/-! ## Machinery for C6: per-character substitution plus collapse equals
run-based substitution plus collapse -/

theorem collapseAux_runSub_switch (l : List Char) :
    collapseAux true (runSubAux false l) = collapseAux true (runSubAux true l) := by
  cases l with
  | nil => rfl
  | cons c cs =>
    by_cases hc : keepChar c
    · simp [runSubAux, hc]
    · simp [runSubAux, hc, collapseAux]

theorem collapseAux_subBad_runSub (l : List Char) :
    ∀ b, collapseAux b (subBad l) = collapseAux b (runSubAux b l) := by
  induction l with
  | nil => intro b; rfl
  | cons c cs ih =>
    intro b
    by_cases hc : keepChar c
    · have h1 : subBad (c :: cs) = c :: subBad cs := by simp [subBad, hc]
      have h2 : runSubAux b (c :: cs) = c :: runSubAux false cs := by simp [runSubAux, hc]
      by_cases hu : c = '_'
      · subst hu
        cases b with
        | false =>
          rw [h1, h2]
          simp only [collapseAux, if_pos rfl, if_neg (Bool.false_ne_true)]
          rw [ih true, ← collapseAux_runSub_switch cs]
          simp
        | true =>
          rw [h1, h2]
          simp only [collapseAux, if_pos rfl]
          rw [ih true, ← collapseAux_runSub_switch cs]
          simp
      · rw [h1, h2]
        simp only [collapseAux, if_neg hu]
        rw [ih false]
    · have hu : c ≠ '_' := by
        intro he
        rw [he] at hc
        exact hc (by decide)
      have h1 : subBad (c :: cs) = '_' :: subBad cs := by simp [subBad, hc]
      cases b with
      | false =>
        have h2 : runSubAux false (c :: cs) = '_' :: runSubAux true cs := by
          simp [runSubAux, hc]
        rw [h1, h2]
        simp only [collapseAux, if_pos rfl]
        rw [ih true]
        simp
      | true =>
        have h2 : runSubAux true (c :: cs) = runSubAux true cs := by
          simp [runSubAux, hc]
        rw [h1, h2]
        simp only [collapseAux, if_pos rfl]
        rw [ih true]
        simp

theorem collapse_subBad_eq (l : List Char) :
    collapseUnd (subBad l) = collapseUnd (runSub l) :=
  collapseAux_subBad_runSub l false

/-- C6 amended: the filename mapper removes every occurrence of the
base-prefix substring (not only the first), then strips slashes,
substitutes "index" on an empty remainder, strips the query, replaces
each run of disallowed characters by an underscore and collapses
underscore runs, and appends ".mdx" when missing; it agrees with that
description on all inputs and on the claim's two examples. -/
theorem url_to_filename_matches_spec :
    (∀ base url : String, url_to_filename base url = url_to_filename_spec base url) ∧
    url_to_filename "https://x.com/docs" "https://x.com/docs" = "index.mdx" ∧
    url_to_filename "https://x.com/docs" "https://x.com/docs/a/b?x=1" = "a_b.mdx" := by
  refine ⟨?_, by decide, by decide⟩
  intro base url
  simp only [url_to_filename, url_to_filename_spec]
  rw [collapse_subBad_eq]

/-! ## Machinery for C2: termination of the crawl loop -/

theorem stepAt_measure_decreases (U : Finset String) (base : String) (site : Site)
    (url : String) (s s' : EngineState) (hstep : StepAt base site url s s')
    (hFU : s.urls_to_visit ⊆ U) (hVU : s.visited_urls ⊆ U)
    (hlinks : ∀ u page, site u = some page → extract_links base page.absLinks ⊆ U) :
    crawlMeasure U s' < crawlMeasure U s ∧
    s'.urls_to_visit ⊆ U ∧ s'.visited_urls ⊆ U := by
  rcases hstep with ⟨hmem, rfl⟩
  have hFe : s.urls_to_visit.erase url ⊆ U := (Finset.erase_subset _ _).trans hFU
  by_cases hv : url ∈ s.visited_urls
  · rw [runIter_of_visited base site url s hv]
    refine ⟨?_, hFe, hVU⟩
    unfold crawlMeasure
    have h1 := Finset.card_erase_lt_of_mem hmem
    simp only
    omega
  · have hUrlU : url ∈ U := hFU hmem
    have hmemdiff : url ∈ U \ s.visited_urls := Finset.mem_sdiff.mpr ⟨hUrlU, hv⟩
    have hcardpos : 0 < (U \ s.visited_urls).card :=
      Finset.card_pos.mpr ⟨url, hmemdiff⟩
    have hsd : U \ insert url s.visited_urls = (U \ s.visited_urls).erase url := by
      ext x
      simp only [Finset.mem_sdiff, Finset.mem_erase, Finset.mem_insert]
      tauto
    have hVU' : insert url s.visited_urls ⊆ U := Finset.insert_subset hUrlU hVU
    have hmul : (U \ s.visited_urls).card * (U.card + 1) =
        ((U \ s.visited_urls).card - 1) * (U.card + 1) + (U.card + 1) := by
      rcases Nat.exists_eq_add_of_lt hcardpos with ⟨k, hk⟩
      simp only [Nat.zero_add] at hk
      rw [hk, Nat.add_sub_cancel, Nat.succ_mul]
    cases hsite : site url with
    | none =>
      rw [runIter_of_fail base site url s hv hsite]
      refine ⟨?_, hFe, hVU'⟩
      unfold crawlMeasure
      simp only
      rw [hsd, Finset.card_erase_of_mem hmemdiff]
      have h1 := Finset.card_erase_lt_of_mem hmem
      omega
    | some page =>
      rw [runIter_of_success base site url s page hv hsite]
      have hFU' : s.urls_to_visit.erase url ∪
          (extract_links base page.absLinks \ insert url s.visited_urls) ⊆ U := by
        apply Finset.union_subset hFe
        exact (Finset.sdiff_subset).trans (hlinks url page hsite)
      refine ⟨?_, hFU', hVU'⟩
      unfold crawlMeasure
      simp only
      rw [hsd, Finset.card_erase_of_mem hmemdiff]
      have h2 : (s.urls_to_visit.erase url ∪
          (extract_links base page.absLinks \ insert url s.visited_urls)).card ≤ U.card :=
        Finset.card_le_card hFU'
      omega

/-- C2: whenever the seed lies in a finite universe `U` that also
contains every in-scope link any fetchable page can contribute, the
crawl loop admits no infinite run: each iteration either newly visits a
URL of `U` or strictly shrinks the frontier, so the frontier empties and
`run` terminates. -/
theorem crawl_terminates (arg : String) (site : Site) (U : Finset String)
    (hseed : arg ∈ U)
    (hlinks : ∀ u page, site u = some page →
      extract_links (storedBase arg) page.absLinks ⊆ U) :
    Terminates arg site := by
  intro f h0 hstep
  have hPU : ∀ n, (f n).urls_to_visit ⊆ U ∧ (f n).visited_urls ⊆ U := by
    intro n
    induction n with
    | zero =>
      rw [h0]
      constructor
      · intro u hu
        rw [initState] at hu
        rw [Finset.mem_singleton.mp hu]
        exact hseed
      · intro u hu
        rw [initState] at hu
        simp at hu
    | succ n ih =>
      obtain ⟨url, hs⟩ := hstep n
      have h := stepAt_measure_decreases U (storedBase arg) site url (f n) (f (n + 1))
        hs ih.1 ih.2 hlinks
      exact ⟨h.2.1, h.2.2⟩
  have hdec : ∀ n, crawlMeasure U (f (n + 1)) < crawlMeasure U (f n) := by
    intro n
    obtain ⟨url, hs⟩ := hstep n
    exact (stepAt_measure_decreases U (storedBase arg) site url (f n) (f (n + 1))
      hs (hPU n).1 (hPU n).2 hlinks).1
  have hbound : ∀ n, crawlMeasure U (f n) + n ≤ crawlMeasure U (f 0) := by
    intro n
    induction n with
    | zero => omega
    | succ n ih =>
      have := hdec n
      omega
  have := hbound (crawlMeasure U (f 0) + 1)
  omega

/-- C2 witness: a crawl of "https://x.com/docs" against a site whose
fetches all fail terminates. -/
theorem crawl_terminates_witness : Terminates "https://x.com/docs" siteNone :=
  crawl_terminates "https://x.com/docs" siteNone {"https://x.com/docs"}
    (Finset.mem_singleton_self _)
    (fun u page h => absurd h (by simp [siteNone]))

/-! ## Machinery for C4: how one parse stage reacts to an appended
delimiter -/

theorem takeWhile_all (p : Char → Bool) (l : List Char) (h : ∀ c ∈ l, p c = true) :
    l.takeWhile p = l := by
  induction l with
  | nil => rfl
  | cons c cs ih =>
    rw [List.takeWhile_cons_of_pos (h c (List.mem_cons_self _ _))]
    rw [ih (fun d hd => h d (List.mem_cons_of_mem _ hd))]

theorem dropWhile_all (p : Char → Bool) (l : List Char) (h : ∀ c ∈ l, p c = true) :
    l.dropWhile p = [] := by
  induction l with
  | nil => rfl
  | cons c cs ih =>
    rw [List.dropWhile_cons_of_pos (h c (List.mem_cons_self _ _))]
    exact ih (fun d hd => h d (List.mem_cons_of_mem _ hd))

theorem takeWhile_append_bad_head (p : Char → Bool) (a : List Char) (d : Char)
    (t : List Char) (hd : p d = false) :
    (a ++ d :: t).takeWhile p = a.takeWhile p := by
  have hda : ¬ p d = true := by rw [hd]; simp
  induction a with
  | nil =>
    rw [List.nil_append, List.takeWhile_cons_of_neg hda]
    rfl
  | cons c cs ih =>
    by_cases hc : p c
    · rw [List.cons_append, List.takeWhile_cons_of_pos hc,
        List.takeWhile_cons_of_pos hc, ih]
    · rw [List.cons_append, List.takeWhile_cons_of_neg hc,
        List.takeWhile_cons_of_neg hc]

theorem dropWhile_append_bad_head (p : Char → Bool) (a : List Char) (d : Char)
    (t : List Char) (hd : p d = false) :
    (a ++ d :: t).dropWhile p = a.dropWhile p ++ d :: t := by
  have hda : ¬ p d = true := by rw [hd]; simp
  induction a with
  | nil =>
    rw [List.nil_append, List.dropWhile_cons_of_neg hda]
    rfl
  | cons c cs ih =>
    by_cases hc : p c
    · rw [List.cons_append, List.dropWhile_cons_of_pos hc,
        List.dropWhile_cons_of_pos hc, ih]
    · rw [List.cons_append, List.dropWhile_cons_of_neg hc,
        List.dropWhile_cons_of_neg hc]
      simp

theorem splitAtFirst_of_notin (m : Char) (l : List Char) (h : m ∉ l) :
    splitAtFirst m l = (l, []) := by
  unfold splitAtFirst
  have hall : ∀ c ∈ l, (fun c => decide (c ≠ m)) c = true := by
    intro c hc
    simp only [decide_eq_true_eq]
    intro he
    exact h (he ▸ hc)
  rw [takeWhile_all _ _ hall, dropWhile_all _ _ hall]
  rfl

theorem splitAtFirst_boundary (m : Char) (a z : List Char) (h : m ∉ a) :
    splitAtFirst m (a ++ m :: z) = (a, z) := by
  unfold splitAtFirst
  have hall : ∀ c ∈ a, (fun c => decide (c ≠ m)) c = true := by
    intro c hc
    simp only [decide_eq_true_eq]
    intro he
    exact h (he ▸ hc)
  have hm : (fun c => decide (c ≠ m)) m = false := by simp
  rw [takeWhile_append_bad_head _ _ _ _ hm, dropWhile_append_bad_head _ _ _ _ hm,
    takeWhile_all _ _ hall, dropWhile_all _ _ hall]
  simp

theorem schemeTail_append_some (u : List Char) :
    ∀ s r x, schemeTail u = some (s, r) → schemeTail (u ++ x) = some (s, r ++ x) := by
  induction u with
  | nil => intro s r x h; simp [schemeTail] at h
  | cons c cs ih =>
    intro s r x h
    simp only [schemeTail] at h
    by_cases hc : c = ':'
    · rw [if_pos hc] at h
      simp only [Option.some.injEq, Prod.mk.injEq] at h
      rw [List.cons_append]
      simp only [schemeTail, if_pos hc]
      rw [← h.1, ← h.2]
    · rw [if_neg hc] at h
      by_cases hsc : schemeChar c
      · rw [if_pos hsc] at h
        cases hst : schemeTail cs with
        | none => rw [hst] at h; simp at h
        | some p =>
          rw [hst] at h
          simp only [Option.map_some', Option.some.injEq, Prod.mk.injEq] at h
          rw [List.cons_append]
          simp only [schemeTail, if_neg hc, if_pos hsc]
          rw [ih p.1 p.2 x (by rw [hst])]
          simp only [Option.map_some', Option.some.injEq, Prod.mk.injEq]
          exact ⟨h.1, by rw [h.2]⟩
      · rw [if_neg hsc] at h
        simp at h

theorem schemeTail_append_none (u : List Char) (d : Char) (t : List Char)
    (hd1 : d ≠ ':') (hd2 : schemeChar d = false) :
    schemeTail u = none → schemeTail (u ++ d :: t) = none := by
  induction u with
  | nil =>
    intro _
    simp only [List.nil_append, schemeTail, if_neg hd1, hd2]
    simp
  | cons c cs ih =>
    intro h
    simp only [schemeTail] at h
    by_cases hc : c = ':'
    · rw [if_pos hc] at h; simp at h
    · rw [if_neg hc] at h
      by_cases hsc : schemeChar c
      · rw [if_pos hsc] at h
        have hcs : schemeTail cs = none := by
          cases hst : schemeTail cs with
          | none => rfl
          | some p => rw [hst] at h; simp at h
        rw [List.cons_append]
        simp only [schemeTail, if_neg hc, if_pos hsc, ih hcs]
        rfl
      · rw [List.cons_append]
        simp only [schemeTail, if_neg hc, if_neg hsc]

theorem takeScheme_append_some (u : List Char) (s r x : List Char)
    (h : takeScheme u = some (s, r)) : takeScheme (u ++ x) = some (s, r ++ x) := by
  cases u with
  | nil => simp [takeScheme] at h
  | cons c cs =>
    simp only [takeScheme] at h
    by_cases hca : c.isAlpha
    · rw [if_pos hca] at h
      cases hst : schemeTail cs with
      | none => rw [hst] at h; simp at h
      | some p =>
        rw [hst] at h
        simp only [Option.map_some', Option.some.injEq, Prod.mk.injEq] at h
        rw [List.cons_append]
        simp only [takeScheme, if_pos hca,
          schemeTail_append_some cs p.1 p.2 x (by rw [hst])]
        simp only [Option.map_some', Option.some.injEq, Prod.mk.injEq]
        exact ⟨h.1, by rw [h.2]⟩
    · rw [if_neg hca] at h
      simp at h

theorem takeScheme_append_none (u : List Char) (d : Char) (t : List Char)
    (hd0 : d.isAlpha = false) (hd1 : d ≠ ':') (hd2 : schemeChar d = false)
    (h : takeScheme u = none) : takeScheme (u ++ d :: t) = none := by
  cases u with
  | nil =>
    simp only [List.nil_append, takeScheme, hd0]
    simp
  | cons c cs =>
    simp only [takeScheme] at h
    by_cases hca : c.isAlpha
    · rw [if_pos hca] at h
      have hcs : schemeTail cs = none := by
        cases hst : schemeTail cs with
        | none => rfl
        | some p => rw [hst] at h; simp at h
      rw [List.cons_append]
      simp only [takeScheme, if_pos hca, schemeTail_append_none cs d t hd1 hd2 hcs]
      rfl
    · rw [List.cons_append]
      simp only [takeScheme, if_neg hca]

theorem schemeSplit_append_delim (l : List Char) (d : Char) (t : List Char)
    (hd0 : d.isAlpha = false) (hd1 : d ≠ ':') (hd2 : schemeChar d = false) :
    schemeSplit (l ++ d :: t) =
      ((schemeSplit l).1, (schemeSplit l).2 ++ d :: t) := by
  unfold schemeSplit
  cases hts : takeScheme l with
  | none => rw [takeScheme_append_none l d t hd0 hd1 hd2 hts]
  | some p => rw [takeScheme_append_some l p.1 p.2 (d :: t) (by rw [hts])]

theorem mem_schemeTail_rest (u : List Char) :
    ∀ s r c, schemeTail u = some (s, r) → c ∈ r → c ∈ u := by
  induction u with
  | nil => intro s r c h; simp [schemeTail] at h
  | cons a as ih =>
    intro s r c h hc
    simp only [schemeTail] at h
    by_cases ha : a = ':'
    · rw [if_pos ha] at h
      simp only [Option.some.injEq, Prod.mk.injEq] at h
      exact List.mem_cons_of_mem _ (h.2 ▸ hc)
    · rw [if_neg ha] at h
      by_cases hsc : schemeChar a
      · rw [if_pos hsc] at h
        cases hst : schemeTail as with
        | none => rw [hst] at h; simp at h
        | some p =>
          rw [hst] at h
          simp only [Option.map_some', Option.some.injEq, Prod.mk.injEq] at h
          exact List.mem_cons_of_mem _ (ih p.1 p.2 c (by rw [hst]) (h.2 ▸ hc))
      · rw [if_neg hsc] at h
        simp at h

theorem mem_schemeSplit_rest (l : List Char) (c : Char)
    (h : c ∈ (schemeSplit l).2) : c ∈ l := by
  unfold schemeSplit at h
  cases hts : takeScheme l with
  | none => rw [hts] at h; exact h
  | some p =>
    rw [hts] at h
    cases l with
    | nil => simp [takeScheme] at hts
    | cons a as =>
      simp only [takeScheme] at hts
      by_cases ha : a.isAlpha
      · rw [if_pos ha] at hts
        cases hst : schemeTail as with
        | none => rw [hst] at hts; simp at hts
        | some q =>
          rw [hst] at hts
          simp only [Option.map_some', Option.some.injEq] at hts
          have h' : c ∈ p.2 := h
          rw [← hts] at h'
          exact List.mem_cons_of_mem _
            (mem_schemeTail_rest as q.1 q.2 c (by rw [hst]) h')
      · rw [if_neg ha] at hts
        simp at hts

theorem splitNetloc_not_ss (l : List Char) (h : ∀ t, l ≠ '/' :: '/' :: t) :
    splitNetloc l = ([], l) := by
  cases l with
  | nil => rfl
  | cons a as =>
    cases as with
    | nil =>
      unfold splitNetloc
      split
      · rename_i heq
        injection heq with _ h2
        simp at h2
      · rfl
    | cons b t =>
      have hab : ¬(a = '/' ∧ b = '/') := by
        rintro ⟨rfl, rfl⟩
        exact h t rfl
      unfold splitNetloc
      split
      · rename_i heq
        injection heq with h1 h2
        injection h2 with h2 _
        exact absurd ⟨h1, h2⟩ hab
      · rfl

theorem mem_splitNetloc_rest (l : List Char) (c : Char)
    (h : c ∈ (splitNetloc l).2) : c ∈ l := by
  by_cases hss : ∃ t, l = '/' :: '/' :: t
  · obtain ⟨t, rfl⟩ := hss
    have : (splitNetloc ('/' :: '/' :: t)).2 = t.dropWhile (fun c => !netDelim c) := rfl
    rw [this] at h
    exact List.mem_cons_of_mem _ (List.mem_cons_of_mem _ (mem_of_mem_dropWhile _ _ _ h))
  · rw [splitNetloc_not_ss l (fun t ht => hss ⟨t, ht⟩)] at h
    exact h

theorem splitNetloc_append_delim (r : List Char) (d : Char) (z : List Char)
    (hdelim : netDelim d = true) (hz : d ≠ '/' ∨ z = [])
    (hexc : ¬(r = ['/'] ∧ d = '/')) :
    splitNetloc (r ++ d :: z) = ((splitNetloc r).1, (splitNetloc r).2 ++ d :: z) := by
  have hbad : (fun c => !netDelim c) d = false := by simp [hdelim]
  cases r with
  | nil =>
    have hne : ∀ t, d :: z ≠ '/' :: '/' :: t := by
      intro t ht
      injection ht with h1 h2
      rcases hz with hz | hz
      · exact hz h1
      · rw [hz] at h2
        simp at h2
    rw [List.nil_append, splitNetloc_not_ss [] (by intro t ht; simp at ht),
      splitNetloc_not_ss (d :: z) hne]
    simp
  | cons a as =>
    cases as with
    | nil =>
      have hne : ∀ t, a :: d :: z ≠ '/' :: '/' :: t := by
        intro t ht
        injection ht with h1 h2
        injection h2 with h2 _
        exact hexc ⟨by rw [h1], h2⟩
      rw [List.cons_append, List.nil_append,
        splitNetloc_not_ss [a] (by intro t ht; simp at ht),
        splitNetloc_not_ss (a :: d :: z) hne]
      simp
    | cons b t =>
      by_cases hab : a = '/' ∧ b = '/'
      · obtain ⟨rfl, rfl⟩ := hab
        show splitNetloc ('/' :: '/' :: (t ++ d :: z)) = _
        have h1 : splitNetloc ('/' :: '/' :: (t ++ d :: z)) =
            ((t ++ d :: z).takeWhile (fun c => !netDelim c),
             (t ++ d :: z).dropWhile (fun c => !netDelim c)) := rfl
        have h2 : splitNetloc ('/' :: '/' :: t) =
            (t.takeWhile (fun c => !netDelim c),
             t.dropWhile (fun c => !netDelim c)) := rfl
        rw [h1, h2, takeWhile_append_bad_head _ _ _ _ hbad,
          dropWhile_append_bad_head _ _ _ _ hbad]
      · have hne : ∀ w, a :: b :: (t ++ d :: z) ≠ '/' :: '/' :: w := by
          intro w hw
          injection hw with hw1 hw2
          injection hw2 with hw2 _
          exact hab ⟨hw1, hw2⟩
        have hne2 : ∀ w, a :: b :: t ≠ '/' :: '/' :: w := by
          intro w hw
          injection hw with hw1 hw2
          injection hw2 with hw2 _
          exact hab ⟨hw1, hw2⟩
        rw [List.cons_append, List.cons_append]
        rw [splitNetloc_not_ss _ hne, splitNetloc_not_ss _ hne2]
        simp

theorem urlparse_scheme (l : List Char) : (urlparse l).scheme = (schemeSplit l).1 := rfl

theorem urlparse_netloc (l : List Char) :
    (urlparse l).netloc = (splitNetloc (schemeSplit l).2).1 := rfl

theorem urlparse_query (l : List Char) :
    (urlparse l).query =
      (splitAtFirst '?' (splitAtFirst '#' (splitNetloc (schemeSplit l).2).2).1).2 := rfl

theorem urlparse_path (l : List Char) :
    (urlparse l).path =
      (if (schemeSplit l).1 ∈ usesParams ∧
          ';' ∈ (splitAtFirst '?' (splitAtFirst '#' (splitNetloc (schemeSplit l).2).2).1).1
       then
         splitParams (splitAtFirst '?' (splitAtFirst '#' (splitNetloc (schemeSplit l).2).2).1).1
       else
         ((splitAtFirst '?' (splitAtFirst '#' (splitNetloc (schemeSplit l).2).2).1).1,
          [])).1 := rfl

theorem normalize_url_eq (u : String) :
    normalize_url u =
      (if (urlparse u.data).query ≠ [] then
        String.mk (pyRstrip '/' ((urlparse u.data).scheme ++ "://".data ++
          (urlparse u.data).netloc ++ (urlparse u.data).path) ++ '?' :: (urlparse u.data).query)
      else
        String.mk (pyRstrip '/' ((urlparse u.data).scheme ++ "://".data ++
          (urlparse u.data).netloc ++ (urlparse u.data).path))) := rfl

theorem pyRstrip_append_same (c : Char) (x : List Char) :
    pyRstrip c (x ++ [c]) = pyRstrip c x := by
  unfold pyRstrip
  rw [List.reverse_append]
  simp [List.dropWhile]

theorem urlparse_append_fragment (l lf : List Char) (hl : '#' ∉ l) :
    (urlparse (l ++ '#' :: lf)).scheme = (urlparse l).scheme ∧
    (urlparse (l ++ '#' :: lf)).netloc = (urlparse l).netloc ∧
    (urlparse (l ++ '#' :: lf)).path = (urlparse l).path ∧
    (urlparse (l ++ '#' :: lf)).query = (urlparse l).query := by
  have hsch := schemeSplit_append_delim l '#' lf (by decide) (by decide) (by decide)
  have hsch1 : (schemeSplit (l ++ '#' :: lf)).1 = (schemeSplit l).1 :=
    by rw [hsch]
  have hsch2 : (schemeSplit (l ++ '#' :: lf)).2 = (schemeSplit l).2 ++ '#' :: lf :=
    by rw [hsch]
  have hrh : '#' ∉ (schemeSplit l).2 := fun hc => hl (mem_schemeSplit_rest l '#' hc)
  have hnet := splitNetloc_append_delim (schemeSplit l).2 '#' lf (by decide)
    (Or.inl (by decide)) (by rintro ⟨_, h⟩; exact absurd h (by decide))
  have hnet1 : (splitNetloc ((schemeSplit l).2 ++ '#' :: lf)).1 =
      (splitNetloc (schemeSplit l).2).1 := by rw [hnet]
  have hnet2 : (splitNetloc ((schemeSplit l).2 ++ '#' :: lf)).2 =
      (splitNetloc (schemeSplit l).2).2 ++ '#' :: lf := by rw [hnet]
  have hresth : '#' ∉ (splitNetloc (schemeSplit l).2).2 :=
    fun hc => hrh (mem_splitNetloc_rest _ '#' hc)
  have hfrag1 : splitAtFirst '#' (splitNetloc (schemeSplit l).2).2 =
      ((splitNetloc (schemeSplit l).2).2, []) := splitAtFirst_of_notin _ _ hresth
  have hfrag2 : splitAtFirst '#' ((splitNetloc (schemeSplit l).2).2 ++ '#' :: lf) =
      ((splitNetloc (schemeSplit l).2).2, lf) := splitAtFirst_boundary _ _ _ hresth
  have hf1 : (splitAtFirst '#' ((splitNetloc (schemeSplit l).2).2 ++ '#' :: lf)).1 =
      (splitNetloc (schemeSplit l).2).2 := by rw [hfrag2]
  have hf1u : (splitAtFirst '#' (splitNetloc (schemeSplit l).2).2).1 =
      (splitNetloc (schemeSplit l).2).2 := by rw [hfrag1]
  refine ⟨?_, ?_, ?_, ?_⟩
  · rw [urlparse_scheme, urlparse_scheme, hsch1]
  · rw [urlparse_netloc, urlparse_netloc, hsch2, hnet1]
  · rw [urlparse_path, urlparse_path, hsch1, hsch2, hnet2, hf1, hf1u]
  · rw [urlparse_query, urlparse_query, hsch2, hnet2, hf1, hf1u]

theorem normalize_url_drops_fragment (u f : String) (hu : '#' ∉ u.data) :
    normalize_url (u ++ "#" ++ f) = normalize_url u := by
  have hdata : (u ++ "#" ++ f).data = u.data ++ '#' :: f.data := by
    simp [String.data_append]
  have hc := urlparse_append_fragment u.data f.data hu
  rw [normalize_url_eq (u ++ "#" ++ f), normalize_url_eq u, hdata,
    hc.1, hc.2.1, hc.2.2.1, hc.2.2.2]

theorem urlparse_path_no_params (l : List Char)
    (h : ';' ∉ (splitAtFirst '?' (splitAtFirst '#' (splitNetloc (schemeSplit l).2).2).1).1) :
    (urlparse l).path =
      (splitAtFirst '?' (splitAtFirst '#' (splitNetloc (schemeSplit l).2).2).1).1 := by
  rw [urlparse_path, if_neg (fun hx => h hx.2)]

theorem normalize_url_strips_slash (u : String) (h1 : '#' ∉ u.data)
    (h2 : '?' ∉ u.data) (h3 : ';' ∉ u.data) :
    normalize_url (u ++ "/") = normalize_url u := by
  have hdata : (u ++ "/").data = u.data ++ ['/'] := by simp [String.data_append]
  have hsch := schemeSplit_append_delim u.data '/' [] (by decide) (by decide) (by decide)
  have hsch1 : (schemeSplit (u.data ++ ['/'])).1 = (schemeSplit u.data).1 := by rw [hsch]
  have hsch2 : (schemeSplit (u.data ++ ['/'])).2 = (schemeSplit u.data).2 ++ ['/'] := by
    rw [hsch]
  have hr1 : '#' ∉ (schemeSplit u.data).2 := fun hc => h1 (mem_schemeSplit_rest _ '#' hc)
  have hr2 : '?' ∉ (schemeSplit u.data).2 := fun hc => h2 (mem_schemeSplit_rest _ '?' hc)
  have hr3 : ';' ∉ (schemeSplit u.data).2 := fun hc => h3 (mem_schemeSplit_rest _ ';' hc)
  by_cases hA : (schemeSplit u.data).2 = ['/']
  · have hq' : (urlparse (u.data ++ ['/'])).query = [] := by
      rw [urlparse_query, hsch2, hA]
      rfl
    have hn' : (urlparse (u.data ++ ['/'])).netloc = [] := by
      rw [urlparse_netloc, hsch2, hA]
      rfl
    have hy' : (splitAtFirst '?'
        (splitAtFirst '#' (splitNetloc (schemeSplit (u.data ++ ['/'])).2).2).1).1 = [] := by
      rw [hsch2, hA]
      rfl
    have hp' : (urlparse (u.data ++ ['/'])).path = [] := by
      rw [urlparse_path_no_params _ (by rw [hy']; simp), hy']
    have hqu : (urlparse u.data).query = [] := by
      rw [urlparse_query, hA]
      rfl
    have hnu : (urlparse u.data).netloc = [] := by
      rw [urlparse_netloc, hA]
      rfl
    have hyu : (splitAtFirst '?'
        (splitAtFirst '#' (splitNetloc (schemeSplit u.data).2).2).1).1 = ['/'] := by
      rw [hA]
      rfl
    have hpu : (urlparse u.data).path = ['/'] := by
      rw [urlparse_path_no_params _ (by rw [hyu]; simp), hyu]
    rw [normalize_url_eq (u ++ "/"), normalize_url_eq u, hdata,
      urlparse_scheme, urlparse_scheme, hq', hn', hp', hqu, hnu, hpu, hsch1]
    simp only [ne_eq, not_true_eq_false, if_false, List.append_nil]
    rw [← pyRstrip_append_same '/' ((schemeSplit u.data).1 ++ "://".data)]
  · have hnet := splitNetloc_append_delim (schemeSplit u.data).2 '/' [] (by decide)
      (Or.inr rfl) (fun hx => hA hx.1)
    have hnet1 : (splitNetloc ((schemeSplit u.data).2 ++ ['/'])).1 =
        (splitNetloc (schemeSplit u.data).2).1 := by rw [hnet]
    have hnet2 : (splitNetloc ((schemeSplit u.data).2 ++ ['/'])).2 =
        (splitNetloc (schemeSplit u.data).2).2 ++ ['/'] := by rw [hnet]
    have hrest1 : '#' ∉ (splitNetloc (schemeSplit u.data).2).2 :=
      fun hc => hr1 (mem_splitNetloc_rest _ '#' hc)
    have hrest2 : '?' ∉ (splitNetloc (schemeSplit u.data).2).2 :=
      fun hc => hr2 (mem_splitNetloc_rest _ '?' hc)
    have hrest3 : ';' ∉ (splitNetloc (schemeSplit u.data).2).2 :=
      fun hc => hr3 (mem_splitNetloc_rest _ ';' hc)
    have hplus1 : '#' ∉ (splitNetloc (schemeSplit u.data).2).2 ++ ['/'] := by
      intro hmem
      rcases List.mem_append.mp hmem with h | h
      · exact hrest1 h
      · simp at h
    have hplus2 : '?' ∉ (splitNetloc (schemeSplit u.data).2).2 ++ ['/'] := by
      intro hmem
      rcases List.mem_append.mp hmem with h | h
      · exact hrest2 h
      · simp at h
    have hplus3 : ';' ∉ (splitNetloc (schemeSplit u.data).2).2 ++ ['/'] := by
      intro hmem
      rcases List.mem_append.mp hmem with h | h
      · exact hrest3 h
      · simp at h
    have hfr' : splitAtFirst '#' ((splitNetloc (schemeSplit u.data).2).2 ++ ['/']) =
        ((splitNetloc (schemeSplit u.data).2).2 ++ ['/'], []) :=
      splitAtFirst_of_notin _ _ hplus1
    have hfr : splitAtFirst '#' (splitNetloc (schemeSplit u.data).2).2 =
        ((splitNetloc (schemeSplit u.data).2).2, []) :=
      splitAtFirst_of_notin _ _ hrest1
    have hqs' : splitAtFirst '?' ((splitNetloc (schemeSplit u.data).2).2 ++ ['/']) =
        ((splitNetloc (schemeSplit u.data).2).2 ++ ['/'], []) :=
      splitAtFirst_of_notin _ _ hplus2
    have hqs : splitAtFirst '?' (splitNetloc (schemeSplit u.data).2).2 =
        ((splitNetloc (schemeSplit u.data).2).2, []) :=
      splitAtFirst_of_notin _ _ hrest2
    have hy' : (splitAtFirst '?'
        (splitAtFirst '#' (splitNetloc (schemeSplit (u.data ++ ['/'])).2).2).1).1 =
        (splitNetloc (schemeSplit u.data).2).2 ++ ['/'] := by
      rw [hsch2, hnet2, hfr', hqs']
    have hyu : (splitAtFirst '?'
        (splitAtFirst '#' (splitNetloc (schemeSplit u.data).2).2).1).1 =
        (splitNetloc (schemeSplit u.data).2).2 := by
      rw [hfr, hqs]
    have hq' : (urlparse (u.data ++ ['/'])).query = [] := by
      rw [urlparse_query, hsch2, hnet2, hfr', hqs']
    have hqu : (urlparse u.data).query = [] := by
      rw [urlparse_query, hfr, hqs]
    have hn' : (urlparse (u.data ++ ['/'])).netloc =
        (splitNetloc (schemeSplit u.data).2).1 := by
      rw [urlparse_netloc, hsch2, hnet1]
    have hp' : (urlparse (u.data ++ ['/'])).path =
        (splitNetloc (schemeSplit u.data).2).2 ++ ['/'] := by
      rw [urlparse_path_no_params _ (by rw [hy']; exact hplus3), hy']
    have hpu : (urlparse u.data).path = (splitNetloc (schemeSplit u.data).2).2 := by
      rw [urlparse_path_no_params _ (by rw [hyu]; exact hrest3), hyu]
    rw [normalize_url_eq (u ++ "/"), normalize_url_eq u, hdata,
      urlparse_scheme, urlparse_scheme, hq', hn', hp', hqu, hpu, hsch1, urlparse_netloc]
    simp only [ne_eq, not_true_eq_false, if_false]
    rw [← List.append_assoc]
    rw [pyRstrip_append_same]

theorem normalize_url_preserves_query (u q : String) (h1 : '#' ∉ u.data)
    (h2 : '?' ∉ u.data) (hq3 : '#' ∉ q.data) (hqne : q ≠ "") :
    normalize_url (u ++ "?" ++ q) = normalize_url u ++ "?" ++ q := by
  have hdata : (u ++ "?" ++ q).data = u.data ++ '?' :: q.data := by
    simp [String.data_append]
  have hsch := schemeSplit_append_delim u.data '?' q.data (by decide) (by decide) (by decide)
  have hsch1 : (schemeSplit (u.data ++ '?' :: q.data)).1 = (schemeSplit u.data).1 := by
    rw [hsch]
  have hsch2 : (schemeSplit (u.data ++ '?' :: q.data)).2 =
      (schemeSplit u.data).2 ++ '?' :: q.data := by rw [hsch]
  have hr1 : '#' ∉ (schemeSplit u.data).2 := fun hc => h1 (mem_schemeSplit_rest _ '#' hc)
  have hr2 : '?' ∉ (schemeSplit u.data).2 := fun hc => h2 (mem_schemeSplit_rest _ '?' hc)
  have hnet := splitNetloc_append_delim (schemeSplit u.data).2 '?' q.data (by decide)
    (Or.inl (by decide)) (by rintro ⟨_, h⟩; exact absurd h (by decide))
  have hnet1 : (splitNetloc ((schemeSplit u.data).2 ++ '?' :: q.data)).1 =
      (splitNetloc (schemeSplit u.data).2).1 := by rw [hnet]
  have hnet2 : (splitNetloc ((schemeSplit u.data).2 ++ '?' :: q.data)).2 =
      (splitNetloc (schemeSplit u.data).2).2 ++ '?' :: q.data := by rw [hnet]
  have hrest1 : '#' ∉ (splitNetloc (schemeSplit u.data).2).2 :=
    fun hc => hr1 (mem_splitNetloc_rest _ '#' hc)
  have hrest2 : '?' ∉ (splitNetloc (schemeSplit u.data).2).2 :=
    fun hc => hr2 (mem_splitNetloc_rest _ '?' hc)
  have hplus1 : '#' ∉ (splitNetloc (schemeSplit u.data).2).2 ++ '?' :: q.data := by
    intro hmem
    rcases List.mem_append.mp hmem with h | h
    · exact hrest1 h
    · rcases List.mem_cons.mp h with h | h
      · exact absurd h (by decide)
      · exact hq3 h
  have hfr' : splitAtFirst '#' ((splitNetloc (schemeSplit u.data).2).2 ++ '?' :: q.data) =
      ((splitNetloc (schemeSplit u.data).2).2 ++ '?' :: q.data, []) :=
    splitAtFirst_of_notin _ _ hplus1
  have hfr : splitAtFirst '#' (splitNetloc (schemeSplit u.data).2).2 =
      ((splitNetloc (schemeSplit u.data).2).2, []) :=
    splitAtFirst_of_notin _ _ hrest1
  have hqs' : splitAtFirst '?' ((splitNetloc (schemeSplit u.data).2).2 ++ '?' :: q.data) =
      ((splitNetloc (schemeSplit u.data).2).2, q.data) :=
    splitAtFirst_boundary _ _ _ hrest2
  have hqs : splitAtFirst '?' (splitNetloc (schemeSplit u.data).2).2 =
      ((splitNetloc (schemeSplit u.data).2).2, []) :=
    splitAtFirst_of_notin _ _ hrest2
  have hy' : (splitAtFirst '?'
      (splitAtFirst '#' (splitNetloc (schemeSplit (u.data ++ '?' :: q.data)).2).2).1).1 =
      (splitNetloc (schemeSplit u.data).2).2 := by
    rw [hsch2, hnet2, hfr', hqs']
  have hyu : (splitAtFirst '?'
      (splitAtFirst '#' (splitNetloc (schemeSplit u.data).2).2).1).1 =
      (splitNetloc (schemeSplit u.data).2).2 := by
    rw [hfr, hqs]
  have hq' : (urlparse (u.data ++ '?' :: q.data)).query = q.data := by
    rw [urlparse_query, hsch2, hnet2, hfr', hqs']
  have hqu : (urlparse u.data).query = [] := by
    rw [urlparse_query, hfr, hqs]
  have hn' : (urlparse (u.data ++ '?' :: q.data)).netloc =
      (splitNetloc (schemeSplit u.data).2).1 := by
    rw [urlparse_netloc, hsch2, hnet1]
  have hgate : ((schemeSplit u.data).1 ∈ usesParams ∧
      ';' ∈ (splitNetloc (schemeSplit u.data).2).2) ∨ True := Or.inr trivial
  have hp' : (urlparse (u.data ++ '?' :: q.data)).path = (urlparse u.data).path := by
    rw [urlparse_path, urlparse_path, hsch1, hy', hyu]
  have hqd : q.data ≠ [] := data_ne_nil_of_ne_empty q hqne
  rw [normalize_url_eq (u ++ "?" ++ q), normalize_url_eq u, hdata,
    urlparse_scheme, urlparse_scheme, hq', hn', hp', hqu, hsch1, urlparse_netloc]
  rw [if_pos hqd]
  simp only [ne_eq, not_true_eq_false, if_false]
  apply String.ext
  show pyRstrip '/' ((schemeSplit u.data).1 ++ "://".data ++
      (splitNetloc (schemeSplit u.data).2).1 ++ (urlparse u.data).path) ++ '?' :: q.data =
    (String.mk (pyRstrip '/' ((schemeSplit u.data).1 ++ "://".data ++
      (splitNetloc (schemeSplit u.data).2).1 ++ (urlparse u.data).path)) ++ "?" ++ q).data
  rw [String.data_append, String.data_append]
  simp

/-- C4 amended: the URL normalizer discards the fragment, strips all
trailing slashes from the path (not exactly one), and preserves the
query: appending "#fragment" to a hash-free URL does not change the
normalized form; appending a trailing slash to a hash-, query- and
params-free URL does not change it (so any number of trailing slashes is
stripped); appending "?query" to such a URL appends exactly "?query" to
the normalized form; and the claim's two example equalities hold. -/
theorem normalize_url_spec :
    (∀ u f : String, '#' ∉ u.data → normalize_url (u ++ "#" ++ f) = normalize_url u) ∧
    (∀ u : String, '#' ∉ u.data → '?' ∉ u.data → ';' ∉ u.data →
      normalize_url (u ++ "/") = normalize_url u) ∧
    (∀ u q : String, '#' ∉ u.data → '?' ∉ u.data → '#' ∉ q.data → q ≠ "" →
      normalize_url (u ++ "?" ++ q) = normalize_url u ++ "?" ++ q) ∧
    normalize_url "https://x.com/a/" = normalize_url "https://x.com/a" ∧
    normalize_url "https://x.com/a#section" = normalize_url "https://x.com/a" :=
  ⟨normalize_url_drops_fragment, normalize_url_strips_slash,
    normalize_url_preserves_query, by decide, by decide⟩

/-- C4 witness: the three laws instantiated at "https://x.com/a". -/
theorem normalize_url_spec_witness :
    normalize_url ("https://x.com/a" ++ "#" ++ "section") = normalize_url "https://x.com/a" ∧
    normalize_url ("https://x.com/a" ++ "/") = normalize_url "https://x.com/a" ∧
    normalize_url ("https://x.com/a" ++ "?" ++ "q=1") =
      normalize_url "https://x.com/a" ++ "?" ++ "q=1" :=
  ⟨normalize_url_spec.1 "https://x.com/a" "section" (by decide),
   normalize_url_spec.2.1 "https://x.com/a" (by decide) (by decide) (by decide),
   normalize_url_spec.2.2.1 "https://x.com/a" "q=1" (by decide) (by decide) (by decide)
     (by decide)⟩

end ScrapeDocs
